import Mathlib

/-!
Verification of the bencode codec, metadata extraction and file verification
logic of `scripts/verify_torrent.py` (fallback path, `HAS_BENCODE = False`).

Byte strings are modelled as `List Nat` (one entry per byte), text produced by
`bytes.decode` as `List Nat` of code points, Python `int` as `Int`, and a raised
exception as `none` in an `Option` result.
-/

set_option linter.unusedVariables false

/-- ASCII whitespace stripped by Python `int()` on a bytes argument. -/
def isPySpace (c : Nat) : Bool :=
  c = 32 || c = 9 || c = 10 || c = 11 || c = 12 || c = 13

def isDigitB (c : Nat) : Bool := 48 ≤ c && c ≤ 57

/-- Digit run of Python `int()`: after one digit, further digits with single
underscores allowed between digits; accumulates the base-10 value. -/
def digitsUAux (acc : Nat) : List Nat → Option Nat
  | [] => some acc
  | c :: rest =>
      if c = 95 then
        match rest with
        | [] => none
        | c2 :: rest2 =>
            if isDigitB c2 then digitsUAux (acc * 10 + (c2 - 48)) rest2 else none
      else if isDigitB c then digitsUAux (acc * 10 + (c - 48)) rest else none

def digitsU : List Nat → Option Nat
  | [] => none
  | c :: rest => if isDigitB c then digitsUAux (c - 48) rest else none

/-- Python `int(b"...")`: optional surrounding ASCII whitespace, optional sign,
then a nonempty digit run (underscores permitted between digits);
`none` models the `ValueError` raised on any other shape. -/
def pyIntParse (s : List Nat) : Option Int :=
  match (((s.dropWhile isPySpace).reverse.dropWhile isPySpace).reverse) with
  | [] => none
  | c :: rest =>
      if c = 43 then (digitsU rest).map Int.ofNat
      else if c = 45 then (digitsU rest).map (fun n => -(Int.ofNat n))
      else (digitsU (c :: rest)).map Int.ofNat

/-- Python indexing `x[i]` on bytes: negative indices count from the end;
`none` models the `IndexError`. -/
def pyGet (x : List Nat) (i : Int) : Option Nat :=
  if 0 ≤ i then x[i.toNat]?
  else if (x.length : Int) + i < 0 then none
  else x[((x.length : Int) + i).toNat]?

/-- Python slicing `x[a:b]` on bytes (step 1): bounds are clamped, negative
bounds count from the end, an empty slice results when they cross. -/
def pySlice (x : List Nat) (a b : Int) : List Nat :=
  let n : Int := x.length
  let a' := (if a < 0 then max (n + a) 0 else min a n).toNat
  let b' := (if b < 0 then max (n + b) 0 else min b n).toNat
  (x.drop a').take (b' - a')

/-- Index of the first occurrence of byte `c`, or `none`. -/
def findByte (c : Nat) : List Nat → Option Nat
  | [] => none
  | b :: bs => if b = c then some 0 else (findByte c bs).map (· + 1)

/-- Python `x.find(bytes([c]), i)`: search starts at `i` (negative counts from
the end, clamped), result is the absolute index or `-1`. -/
def pyFind (x : List Nat) (c : Nat) (i : Int) : Int :=
  let n : Int := x.length
  let j := if i < 0 then max (n + i) 0 else i
  match findByte c (x.drop j.toNat) with
  | none => -1
  | some k => j + (k : Int)

/-- The decoded value tree of the fallback bencode decoder
(`decode_strings = False`): Python `int`, `bytes`, `list` and `dict`
(the dict keeps insertion order, keys unique). -/
inductive Value where
  | int : Int → Value
  | str : List Nat → Value
  | list : List Value → Value
  | dict : List (List Nat × Value) → Value
deriving Repr

/-- Python `result[key] = val` on a dict represented as an insertion-ordered
association list: an existing key keeps its position, a new key is appended. -/
def pyDictInsert : List (List Nat × Value) → List Nat → Value → List (List Nat × Value)
  | [], k, v => [(k, v)]
  | (k0, v0) :: rest, k, v =>
      if k0 = k then (k0, v) :: rest else (k0, v0) :: pyDictInsert rest k v

/-- Model of `decode_string` in the fallback decoder: find `:`, parse the length prefix
with `int()`, bounds-check `end > len(x)`, slice the payload. -/
def decodeString (x : List Nat) (i : Int) : Option (List Nat × Int) :=
  let colon := pyFind x 58 i
  if colon = -1 then none
  else
    match pyIntParse (pySlice x i colon) with
    | none => none
    | some length =>
        let start := colon + 1
        let stop := start + length
        if (x.length : Int) < stop then none
        else some (pySlice x start stop, stop)

/-- Model of `decode_int` in the fallback decoder: skip `i`, find `e`, feed the slice to
`int()` (so `i-0e` and leading zeros are accepted). -/
def decodeInt (x : List Nat) (i : Int) : Option (Value × Int) :=
  let i := i + 1
  let e := pyFind x 101 i
  if e = -1 then none
  else
    match pyIntParse (pySlice x i e) with
    | none => none
    | some n => some (.int n, e + 1)

/-- Control state of the fallback decoder: `val` is `decode`; `listLoop` /
`dictLoop` are the `while` loops of `decode_list` / `decode_dict`, carrying the
accumulated elements. -/
inductive DMode where
  | val : DMode
  | listLoop : List Value → DMode
  | dictLoop : List (List Nat × Value) → DMode

/-- The mutually recursive `decode` / `decode_list` / `decode_dict` of the
fallback decoder, driven by fuel (each loop iteration and each recursive
`decode` is one step); `none` models a raised exception.  Note both loops stop
at end of buffer without requiring the closing `e`, and both then return
cursor `i + 1`. -/
def decodeD : Nat → List Nat → Int → DMode → Option (Value × Int)
  | 0, _, _, _ => none
  | fuel + 1, x, i, .val =>
      if (x.length : Int) ≤ i then none
      else
        match pyGet x i with
        | none => none
        | some c =>
            if c = 100 then decodeD fuel x (i + 1) (.dictLoop [])
            else if c = 108 then decodeD fuel x (i + 1) (.listLoop [])
            else if c = 105 then decodeInt x i
            else if 48 ≤ c ∧ c ≤ 57 then
              match decodeString x i with
              | none => none
              | some (s, j) => some (.str s, j)
            else none
  | fuel + 1, x, i, .listLoop acc =>
      if i < (x.length : Int) then
        match pyGet x i with
        | none => none
        | some c =>
            if c = 101 then some (.list acc, i + 1)
            else
              match decodeD fuel x i .val with
              | none => none
              | some (item, i') => decodeD fuel x i' (.listLoop (acc ++ [item]))
      else some (.list acc, i + 1)
  | fuel + 1, x, i, .dictLoop acc =>
      if i < (x.length : Int) then
        match pyGet x i with
        | none => none
        | some c =>
            if c = 101 then some (.dict acc, i + 1)
            else
              match decodeString x i with
              | none => none
              | some (k, i') =>
                  match decodeD fuel x i' .val with
                  | none => none
                  | some (v, i'') => decodeD fuel x i'' (.dictLoop (pyDictInsert acc k v))
      else some (.dict acc, i + 1)

/-- Model of `_decode_bencode`: run `decode(data, 0)` and return the value, `none` on
any exception (the Python wrapper catches them and returns `None`).  The fuel
`data.length + 1` dominates every terminating run reached in the theorems
below. -/
def _decode_bencode (data : List Nat) : Option Value :=
  match decodeD (data.length + 1) data 0 .val with
  | none => none
  | some (v, _) => some v

example : _decode_bencode [105, 45, 48, 101] = some (.int 0) := rfl
example : _decode_bencode [53, 58, 97, 98] = none := rfl
example : _decode_bencode [108] = some (.list []) := rfl
example : _decode_bencode [105, 49, 101, 90] = some (.int 1) := rfl
example : _decode_bencode [108, 105, 49, 101, 52, 58, 97, 98, 99, 100, 101] =
    some (.list [.int 1, .str [97, 98, 99, 100]]) := rfl
example : _decode_bencode [100, 49, 58, 97, 105, 50, 101, 101] =
    some (.dict [([97], .int 2)]) := rfl

/-- Helper for Python `str(n)` on a natural number: peel base-10 digits,
most significant first; the fuel bounds the digit count. -/
def natToStrGo : Nat → Nat → List Nat → List Nat
  | 0, _, acc => acc
  | fuel + 1, n, acc =>
      if n = 0 then acc else natToStrGo fuel (n / 10) ((n % 10 + 48) :: acc)

/-- Python `str(n)` for `n : Nat`: decimal ASCII digits, no leading zeros,
`"0"` for zero. -/
def natToStr (n : Nat) : List Nat :=
  if n = 0 then [48] else natToStrGo (n + 1) n []

/-- Python `str(n)` for `n : int`: optional `-` sign then decimal digits. -/
def intToStr (n : Int) : List Nat :=
  if n < 0 then 45 :: natToStr (-n).toNat else natToStr n.toNat

/-- The `bytes` case of `_encode_bencode`: `str(len(obj)) + b":" + obj`. -/
def encBytes (s : List Nat) : List Nat :=
  natToStr s.length ++ 58 :: s

/-- Key order used by Python `sorted` on the dict items (bytes keys compare
lexicographically, which is the `List Nat` lexicographic order). -/
def pairLe (a b : (List Nat × List Nat)) : Prop := a.1 ≤ b.1

instance : DecidableRel pairLe := fun a b => inferInstanceAs (Decidable (a.1 ≤ b.1))

instance : IsTotal (List Nat × List Nat) pairLe := ⟨fun a b => le_total a.1 b.1⟩

instance : IsTrans (List Nat × List Nat) pairLe := ⟨fun _ _ _ h1 h2 => le_trans h1 h2⟩

/-- Model of `sorted(obj.keys())` applied to the already-encoded items: a stable sort of
the `(key, encoded value)` pairs by key.  Because Python dict keys are unique,
this agrees with iterating `sorted(obj.keys())` and looking each key up. -/
def sortPairs (ps : List (List Nat × List Nat)) : List (List Nat × List Nat) :=
  List.insertionSort pairLe ps

def flattenPairs (ps : List (List Nat × List Nat)) : List Nat :=
  (ps.map fun p => encBytes p.1 ++ p.2).flatten

mutual
/-- Model of `_encode_bencode` on decoded values: ints as `i<str(n)>e`, bytes as
`<len>:<bytes>`, lists in order, dicts with keys re-sorted ascending.
(The `str` case of the Python function is unreachable for decoded values and
is not modelled.) -/
def encVal : Value → List Nat
  | .int n => 105 :: (intToStr n ++ [101])
  | .str s => encBytes s
  | .list vs => 108 :: (encSeq vs ++ [101])
  | .dict kvs => 100 :: (flattenPairs (sortPairs (encPairs kvs)) ++ [101])

/-- Concatenated encodings of a list's elements. -/
def encSeq : List Value → List Nat
  | [] => []
  | v :: vs => encVal v ++ encSeq vs

/-- Each dict item paired with its encoded value (insertion order). -/
def encPairs : List (List Nat × Value) → List (List Nat × List Nat)
  | [] => []
  | (k, v) :: rest => (k, encVal v) :: encPairs rest

/-- Concatenated `encBytes key ++ encVal value` over dict items in the order
given (used to state lemmas about already-sorted dicts). -/
def encItems : List (List Nat × Value) → List Nat
  | [] => []
  | (k, v) :: rest => encBytes k ++ encVal v ++ encItems rest
end

def _encode_bencode (v : Value) : List Nat := encVal v

example : _encode_bencode (.int (-7)) = [105, 45, 55, 101] := by
  simp [_encode_bencode, encVal, intToStr, natToStr, natToStrGo]

/-! ### Decimal printing and `int()` parsing agree -/

theorem natToStrGo_eq (fuel : Nat) : ∀ (n : Nat) (acc : List Nat), n < fuel →
    natToStrGo fuel n acc = ((Nat.digits 10 n).reverse.map (· + 48)) ++ acc := by
  induction fuel with
  | zero => intro n acc h; omega
  | succ fuel ih =>
      intro n acc h
      by_cases hn : n = 0
      · subst hn; simp [natToStrGo]
      · have hdiv : n / 10 < fuel := by
          have := Nat.div_lt_self (Nat.pos_of_ne_zero hn) (by norm_num : 1 < 10)
          omega
        rw [natToStrGo, if_neg hn, ih (n / 10) _ hdiv,
          Nat.digits_def' (by norm_num : (1:Nat) < 10) (Nat.pos_of_ne_zero hn)]
        simp [List.append_assoc]

theorem natToStr_pos {n : Nat} (hn : n ≠ 0) :
    natToStr n = (Nat.digits 10 n).reverse.map (· + 48) := by
  rw [natToStr, if_neg hn, natToStrGo_eq (n + 1) n [] (by omega), List.append_nil]

theorem natToStr_digits (n : Nat) : ∀ c ∈ natToStr n, 48 ≤ c ∧ c ≤ 57 := by
  intro c hc
  by_cases hn : n = 0
  · subst hn; simp [natToStr] at hc; omega
  · rw [natToStr_pos hn] at hc
    simp only [List.mem_map, List.mem_reverse] at hc
    obtain ⟨d, hd, rfl⟩ := hc
    have := Nat.digits_lt_base (by norm_num : (1:Nat) < 10) hd
    omega

theorem natToStr_ne_nil (n : Nat) : natToStr n ≠ [] := by
  by_cases hn : n = 0
  · subst hn; simp [natToStr]
  · rw [natToStr_pos hn]
    simp [Nat.digits_ne_nil_iff_ne_zero, hn]

theorem intToStr_mem (n : Int) : ∀ c ∈ intToStr n, 45 ≤ c ∧ c ≤ 57 := by
  intro c hc
  rw [intToStr] at hc
  split at hc
  · rcases List.mem_cons.mp hc with rfl | h
    · omega
    · have := natToStr_digits _ _ h; omega
  · have := natToStr_digits _ _ hc; omega

theorem intToStr_ne_nil (n : Int) : intToStr n ≠ [] := by
  rw [intToStr]
  split
  · simp
  · exact natToStr_ne_nil _

/-- Base-10 value of an ASCII digit run, as computed by `digitsUAux`. -/
def digitVal (ds : List Nat) : Nat :=
  ds.foldl (fun a d => a * 10 + (d - 48)) 0

theorem foldl_digits (L : List Nat) : ∀ acc : Nat,
    L.foldl (fun a d => a * 10 + d) acc = acc * 10 ^ L.length + Nat.ofDigits 10 L.reverse := by
  induction L with
  | nil => intro acc; simp [Nat.ofDigits]
  | cons d t ih =>
      intro acc
      rw [List.foldl_cons, ih, List.reverse_cons, Nat.ofDigits_append]
      simp only [Nat.ofDigits_cons, Nat.ofDigits_nil, List.length_reverse, List.length_cons, pow_succ]
      ring

theorem digitVal_natToStr (n : Nat) : digitVal (natToStr n) = n := by
  by_cases hn : n = 0
  · subst hn; simp [natToStr, digitVal]
  · rw [natToStr_pos hn, digitVal, List.foldl_map]
    have hfun : (fun (a : Nat) (d : Nat) => a * 10 + (d + 48 - 48)) =
        (fun (a : Nat) (d : Nat) => a * 10 + d) := by
      funext a d; omega
    rw [hfun, foldl_digits, List.reverse_reverse, Nat.ofDigits_digits]
    simp

theorem digitsUAux_all (t : List Nat) : ∀ acc, (∀ d ∈ t, 48 ≤ d ∧ d ≤ 57) →
    digitsUAux acc t = some (t.foldl (fun a d => a * 10 + (d - 48)) acc) := by
  induction t with
  | nil => intro acc _; simp [digitsUAux]
  | cons d t ih =>
      intro acc h
      have hd := h d (by simp)
      have h95 : d ≠ 95 := by omega
      have hdig : isDigitB d = true := by simp [isDigitB]; omega
      rw [digitsUAux.eq_def]
      simp only [if_neg h95, if_pos hdig, List.foldl_cons]
      exact ih _ (fun e he => h e (by simp [he]))

theorem digitsU_all (ds : List Nat) (hne : ds ≠ []) (h : ∀ d ∈ ds, 48 ≤ d ∧ d ≤ 57) :
    digitsU ds = some (digitVal ds) := by
  cases ds with
  | nil => exact absurd rfl hne
  | cons c t =>
      have hc := h c (by simp)
      have hdig : isDigitB c = true := by simp [isDigitB]; omega
      rw [digitsU, if_pos hdig, digitsUAux_all t _ (fun e he => h e (by simp [he]))]
      simp [digitVal]

theorem isPySpace_large {c : Nat} (h : 45 ≤ c) : isPySpace c = false := by
  simp [isPySpace]; omega

theorem dropWhile_space_eq_self (l : List Nat) (h : ∀ d ∈ l, 45 ≤ d) :
    l.dropWhile isPySpace = l := by
  cases l with
  | nil => rfl
  | cons a t => rw [List.dropWhile_cons, isPySpace_large (h a (by simp))]; simp

theorem stripSpaces_eq_self (ds : List Nat) (h45 : ∀ d ∈ ds, 45 ≤ d) :
    (((ds.dropWhile isPySpace).reverse.dropWhile isPySpace).reverse) = ds := by
  have h45r : ∀ d ∈ ds.reverse, 45 ≤ d := fun d hd => h45 d (List.mem_reverse.mp hd)
  rw [dropWhile_space_eq_self ds h45, dropWhile_space_eq_self ds.reverse h45r,
    List.reverse_reverse]

theorem pyIntParse_nosign (ds : List Nat) (hne : ds ≠ [])
    (h : ∀ d ∈ ds, 48 ≤ d ∧ d ≤ 57) :
    pyIntParse ds = some ((digitVal ds : Nat) : Int) := by
  have h45 : ∀ d ∈ ds, 45 ≤ d := fun d hd => by have := h d hd; omega
  rw [pyIntParse.eq_def, stripSpaces_eq_self ds h45]
  cases ds with
  | nil => exact absurd rfl hne
  | cons c t =>
      have hc := h c (by simp)
      have hc43 : ¬ c = 43 := by omega
      have hc45 : ¬ c = 45 := by omega
      dsimp only
      rw [if_neg hc43, if_neg hc45, digitsU_all (c :: t) (by simp) h]
      rfl

theorem pyIntParse_natToStr (n : Nat) : pyIntParse (natToStr n) = some (n : Int) := by
  rw [pyIntParse_nosign (natToStr n) (natToStr_ne_nil n) (natToStr_digits n),
    digitVal_natToStr]

theorem pyIntParse_intToStr (n : Int) : pyIntParse (intToStr n) = some n := by
  by_cases hneg : n < 0
  · rw [intToStr, if_pos hneg]
    have hds := natToStr_digits (-n).toNat
    have h45 : ∀ d ∈ 45 :: natToStr (-n).toNat, 45 ≤ d := by
      intro d hd
      rcases List.mem_cons.mp hd with rfl | hd
      · omega
      · have := hds d hd; omega
    rw [pyIntParse.eq_def, stripSpaces_eq_self _ h45]
    dsimp only
    rw [if_neg (by omega : ¬ (45:Nat) = 43), if_pos (rfl : (45:Nat) = 45),
      digitsU_all _ (natToStr_ne_nil _) hds, digitVal_natToStr]
    simp only [Option.map_some']
    congr 1
    simp only [Int.ofNat_eq_coe]
    omega
  · rw [intToStr, if_neg hneg, pyIntParse_natToStr]
    congr 1
    omega

/-! ### Cursor positioning lemmas -/

theorem pyGet_at (pre : List Nat) (c : Nat) (rest : List Nat) :
    pyGet (pre ++ c :: rest) (pre.length : Int) = some c := by
  rw [pyGet, if_pos (by omega : (0:Int) ≤ (pre.length : Int))]
  simp only [Int.toNat_natCast]
  rw [List.getElem?_append_right (le_refl pre.length)]
  simp

theorem findByte_append (c : Nat) (a rest : List Nat) (h : c ∉ a) :
    findByte c (a ++ c :: rest) = some a.length := by
  induction a with
  | nil => simp [findByte]
  | cons b t ih =>
      have hb : ¬ b = c := fun hbc => h (by simp [hbc])
      rw [List.cons_append, findByte, if_neg hb, ih (fun hc => h (by simp [hc]))]
      simp

theorem pyFind_at (pre a : List Nat) (c : Nat) (rest : List Nat) (h : c ∉ a) :
    pyFind (pre ++ a ++ c :: rest) c (pre.length : Int) =
      ((pre.length + a.length : Nat) : Int) := by
  rw [pyFind]
  simp only [if_neg (by omega : ¬ (pre.length : Int) < 0), Int.toNat_natCast,
    List.append_assoc, List.drop_left, findByte_append c a rest h]
  push_cast
  ring

theorem pySlice_at (pre mid rest : List Nat) :
    pySlice (pre ++ mid ++ rest) (pre.length : Int)
      ((pre.length + mid.length : Nat) : Int) = mid := by
  rw [pySlice]
  have hlen : (pre ++ mid ++ rest).length = pre.length + mid.length + rest.length := by
    simp; omega
  simp only [hlen]
  rw [if_neg (by omega), if_neg (by omega),
    min_eq_left (by push_cast; omega), min_eq_left (by push_cast; omega)]
  simp only [Int.toNat_natCast, List.append_assoc, List.drop_left]
  have : pre.length + mid.length - pre.length = mid.length := by omega
  rw [this, List.take_left]

theorem length_append3 (a b c : List Nat) :
    (a ++ b ++ c).length = a.length + b.length + c.length := by simp; omega

/-! ### The decoder succeeds on encoded values -/


theorem pySlice_at' (pre mid rest : List Nat) {a b : Int}
    (ha : a = (pre.length : Int)) (hb : b = (pre.length : Int) + (mid.length : Int)) :
    pySlice (pre ++ mid ++ rest) a b = mid := by
  subst ha; subst hb
  have h : (pre.length : Int) + (mid.length : Int) =
      ((pre.length + mid.length : Nat) : Int) := by push_cast; ring
  rw [h]
  exact pySlice_at pre mid rest

theorem encBytes_length (k : List Nat) :
    (encBytes k).length = (natToStr k.length).length + 1 + k.length := by
  simp [encBytes]; omega

theorem decodeString_enc (k pre post : List Nat) :
    decodeString (pre ++ encBytes k ++ post) (pre.length : Int) =
      some (k, ((pre.length + (encBytes k).length : Nat) : Int)) := by
  have hx : pre ++ encBytes k ++ post =
      pre ++ natToStr k.length ++ (58 :: (k ++ post)) := by
    rw [encBytes]; simp [List.append_assoc]
  have hnocolon : (58:Nat) ∉ natToStr k.length := by
    intro hm; have := natToStr_digits k.length 58 hm; omega
  rw [decodeString, hx, pyFind_at pre (natToStr k.length) 58 (k ++ post) hnocolon]
  rw [if_neg (by push_cast; omega)]
  rw [pySlice_at pre (natToStr k.length) (58 :: (k ++ post)), pyIntParse_natToStr]
  dsimp only
  have hlen : ((pre ++ natToStr k.length ++ (58 :: (k ++ post))).length : Int) =
      (pre.length : Int) + (natToStr k.length).length + 1 + k.length + post.length := by
    simp only [List.length_append, List.length_cons]
    push_cast
    omega
  rw [hlen, if_neg (by push_cast; omega)]
  have hx2 : pre ++ natToStr k.length ++ (58 :: (k ++ post)) =
      (pre ++ natToStr k.length ++ [58]) ++ k ++ post := by
    simp [List.append_assoc]
  rw [hx2, pySlice_at' (pre ++ natToStr k.length ++ [58]) k post
    (by rw [length_append3]; simp only [List.length_cons, List.length_nil]; push_cast; omega)
    (by rw [length_append3]; simp only [List.length_cons, List.length_nil]; push_cast; omega)]
  congr 1
  rw [encBytes_length]
  push_cast
  ring

theorem encInt_eq (n : Int) : encVal (.int n) = 105 :: (intToStr n ++ [101]) := rfl

theorem decodeInt_enc (n : Int) (pre post : List Nat) :
    decodeInt (pre ++ encVal (.int n) ++ post) (pre.length : Int) =
      some (.int n, ((pre.length + (encVal (.int n)).length : Nat) : Int)) := by
  have hx : pre ++ encVal (.int n) ++ post =
      (pre ++ [105]) ++ intToStr n ++ (101 :: post) := by
    rw [encInt_eq]; simp [List.append_assoc]
  have hnoe : (101:Nat) ∉ intToStr n := by
    intro hm; have := intToStr_mem n 101 hm; omega
  have hcast : (pre.length : Int) + 1 = (((pre ++ [105]).length : Nat) : Int) := by
    simp
  rw [decodeInt, hx, hcast, pyFind_at (pre ++ [105]) (intToStr n) 101 post hnoe]
  rw [if_neg (by push_cast; omega)]
  rw [pySlice_at (pre ++ [105]) (intToStr n) (101 :: post), pyIntParse_intToStr]
  dsimp only
  congr 1
  congr 1
  rw [encInt_eq]
  simp only [List.length_append, List.length_cons, List.length_nil]
  push_cast
  omega

/-! ### Canonical values and fuel accounting -/

/-- A value whose encoding is canonical: every dictionary (at any depth) has
its keys in strictly ascending byte order.  Integers and byte strings are
always canonically encodable (`str(n)` never prints leading zeros or `-0`). -/
inductive Canonical : Value → Prop where
  | int (n : Int) : Canonical (.int n)
  | str (s : List Nat) : Canonical (.str s)
  | list (vs : List Value) : (∀ v ∈ vs, Canonical v) → Canonical (.list vs)
  | dict (kvs : List (List Nat × Value)) :
      (∀ p ∈ kvs, Canonical p.2) →
      kvs.Pairwise (fun a b => a.1 < b.1) →
      Canonical (.dict kvs)

mutual
/-- Fuel needed by `decodeD` to consume the encoding of `v`. -/
def needV : Value → Nat
  | .int _ => 1
  | .str _ => 1
  | .list vs => 1 + needL vs
  | .dict kvs => 1 + needD kvs

def needL : List Value → Nat
  | [] => 1
  | v :: vs => 1 + max (needV v) (needL vs)

def needD : List (List Nat × Value) → Nat
  | [] => 1
  | (_, v) :: rest => 1 + max (needV v) (needD rest)
end

theorem needV_pos (v : Value) : 1 ≤ needV v := by
  cases v <;> simp [needV]

theorem needL_pos (vs : List Value) : 1 ≤ needL vs := by
  cases vs <;> simp [needL]

theorem needD_pos (kvs : List (List Nat × Value)) : 1 ≤ needD kvs := by
  cases kvs with
  | nil => simp [needD]
  | cons p rest => obtain ⟨k, v⟩ := p; simp [needD]

theorem encPairs_eq_map (l : List (List Nat × Value)) :
    encPairs l = l.map (fun p => (p.1, encVal p.2)) := by
  induction l with
  | nil => rfl
  | cons p rest ih => obtain ⟨k, v⟩ := p; rw [encPairs, ih]; rfl

theorem flattenPairs_encPairs (l : List (List Nat × Value)) :
    flattenPairs (encPairs l) = encItems l := by
  induction l with
  | nil => rfl
  | cons p rest ih =>
      obtain ⟨k, v⟩ := p
      rw [encPairs, encItems, ← ih, flattenPairs, flattenPairs]
      simp [List.append_assoc]

theorem natToStr_head (n : Nat) : ∃ c r, natToStr n = c :: r ∧ 48 ≤ c ∧ c ≤ 57 := by
  obtain ⟨c, r, h⟩ := List.exists_cons_of_ne_nil (natToStr_ne_nil n)
  exact ⟨c, r, h, natToStr_digits n c (by rw [h]; simp)⟩

theorem encBytes_head (k : List Nat) :
    ∃ c r, encBytes k = c :: r ∧ 48 ≤ c ∧ c ≤ 57 := by
  obtain ⟨c, r, hcr, h1, h2⟩ := natToStr_head k.length
  exact ⟨c, r ++ 58 :: k, by rw [encBytes, hcr]; simp, h1, h2⟩

theorem encVal_length_pos (v : Value) : 1 ≤ (encVal v).length := by
  cases v with
  | int n => rw [encVal]; simp
  | str s =>
      obtain ⟨c, r, hcr, _, _⟩ := encBytes_head s
      rw [encVal, hcr]; simp
  | list vs => rw [encVal]; simp
  | dict kvs => rw [encVal]; simp

/-- Length of `flattenPairs` is invariant under permutation of the pairs. -/
theorem flattenPairs_length_perm {ps ps' : List (List Nat × List Nat)}
    (h : ps.Perm ps') : (flattenPairs ps).length = (flattenPairs ps').length := by
  rw [flattenPairs, flattenPairs, List.length_flatten, List.length_flatten]
  exact List.Perm.sum_eq ((h.map _).map _)

theorem encVal_dict_length (kvs : List (List Nat × Value)) :
    (encVal (.dict kvs)).length = (encItems kvs).length + 2 := by
  rw [encVal]
  have h : (flattenPairs (sortPairs (encPairs kvs))).length =
      (flattenPairs (encPairs kvs)).length :=
    flattenPairs_length_perm (List.perm_insertionSort pairLe (encPairs kvs))
  simp [h, flattenPairs_encPairs]

mutual
theorem needV_le (v : Value) : needV v ≤ (encVal v).length := by
  cases v with
  | int n => rw [needV]; exact encVal_length_pos _
  | str s => rw [needV]; exact encVal_length_pos _
  | list vs =>
      rw [needV, encVal]
      have := needL_le vs
      simp only [List.length_cons, List.length_append, List.length_cons, List.length_nil]
      omega
  | dict kvs =>
      rw [needV, encVal_dict_length]
      have := needD_le kvs
      omega

theorem needL_le (vs : List Value) : needL vs ≤ (encSeq vs).length + 1 := by
  cases vs with
  | nil => rw [needL]; omega
  | cons v vs =>
      rw [needL, encSeq]
      have h1 := needV_le v
      have h2 := needL_le vs
      have h3 := encVal_length_pos v
      simp only [List.length_append]
      omega

theorem needD_le (kvs : List (List Nat × Value)) :
    needD kvs ≤ (encItems kvs).length + 1 := by
  cases kvs with
  | nil => rw [needD]; omega
  | cons p rest =>
      obtain ⟨k, v⟩ := p
      rw [needD, encItems]
      have h1 := needV_le v
      have h2 := needD_le rest
      have h3 := encVal_length_pos v
      obtain ⟨c, r, hcr, _, _⟩ := encBytes_head k
      have h4 : 1 ≤ (encBytes k).length := by rw [hcr]; simp
      simp only [List.length_append]
      omega
end

/-- For a dict already in strictly ascending key order, the encoder's sort is
the identity and the body is `encItems`. -/
theorem encVal_dict_sorted {kvs : List (List Nat × Value)}
    (h : kvs.Pairwise (fun a b => a.1 < b.1)) :
    encVal (.dict kvs) = 100 :: (encItems kvs ++ [101]) := by
  rw [encVal]
  have hsorted : List.Sorted pairLe (encPairs kvs) := by
    rw [encPairs_eq_map]
    rw [List.Sorted, List.pairwise_map]
    exact h.imp (fun hab => le_of_lt hab)
  rw [sortPairs, hsorted.insertionSort_eq, flattenPairs_encPairs]

theorem pairwiseKeyLt_nodup {kvs : List (List Nat × Value)}
    (h : kvs.Pairwise (fun a b => a.1 < b.1)) :
    (kvs.map Prod.fst).Nodup := by
  rw [List.Nodup, List.pairwise_map]
  exact h.imp (fun hab => ne_of_lt hab)

theorem pyDictInsert_append (acc : List (List Nat × Value)) (k : List Nat) (v : Value)
    (h : k ∉ acc.map Prod.fst) : pyDictInsert acc k v = acc ++ [(k, v)] := by
  induction acc with
  | nil => rfl
  | cons p rest ih =>
      obtain ⟨k0, v0⟩ := p
      have hk0 : ¬ k0 = k := by
        intro he; exact h (by simp [he])
      rw [pyDictInsert, if_neg hk0, ih (fun hm => h (by simp [hm]))]
      simp

theorem encVal_head (v : Value) : ∃ c r, encVal v = c :: r ∧ ¬ c = 101 ∧
    (c = 100 ∨ c = 108 ∨ c = 105 ∨ (48 ≤ c ∧ c ≤ 57)) := by
  cases v with
  | int n => exact ⟨105, intToStr n ++ [101], rfl, by omega, by omega⟩
  | str s =>
      obtain ⟨c, r, hcr, h1, h2⟩ := encBytes_head s
      exact ⟨c, r, hcr, by omega, by omega⟩
  | list vs => exact ⟨108, encSeq vs ++ [101], rfl, by omega, by omega⟩
  | dict kvs =>
      exact ⟨100, flattenPairs (sortPairs (encPairs kvs)) ++ [101], rfl, by omega, by omega⟩

theorem encSeq_nil : encSeq [] = [] := rfl

theorem encSeq_cons (v : Value) (vs : List Value) :
    encSeq (v :: vs) = encVal v ++ encSeq vs := rfl

theorem encItems_nil : encItems [] = [] := rfl

theorem encItems_cons (k : List Nat) (v : Value) (rest : List (List Nat × Value)) :
    encItems ((k, v) :: rest) = encBytes k ++ encVal v ++ encItems rest := rfl

theorem encVal_list_eq (vs : List Value) :
    encVal (.list vs) = 108 :: (encSeq vs ++ [101]) := rfl

theorem someMk_eq {A B : Value} {x y : Int} (h1 : A = B) (h2 : x = y) :
    (some (A, x) : Option (Value × Int)) = some (B, y) := by rw [h1, h2]

/-! ### Main parse theorem: the decoder inverts the encoder on canonical values -/

mutual
theorem decode_encVal (v : Value) (hc : Canonical v) (pre post : List Nat)
    (fuel : Nat) (hf : needV v ≤ fuel) :
    decodeD fuel (pre ++ encVal v ++ post) (pre.length : Int) .val =
      some (v, ((pre.length + (encVal v).length : Nat) : Int)) := by
  obtain ⟨f, rfl⟩ : ∃ f, fuel = f + 1 := ⟨fuel - 1, by have := needV_pos v; omega⟩
  cases v with
  | int n =>
      have hx : pre ++ encVal (.int n) ++ post =
          pre ++ 105 :: (intToStr n ++ [101] ++ post) := by
        rw [encInt_eq]; simp [List.append_assoc]
      rw [decodeD, hx,
        if_neg (by simp only [List.length_append, List.length_cons]; push_cast; omega),
        pyGet_at]
      have h1 : ¬ (105:Nat) = 100 := by omega
      have h2 : ¬ (105:Nat) = 108 := by omega
      simp only [if_neg h1, if_neg h2, if_pos (rfl : (105:Nat) = 105)]
      rw [← hx, decodeInt_enc]
      simp
  | str s =>
      obtain ⟨c, r, hcr, hd1, hd2⟩ := encBytes_head s
      have henc : encVal (.str s) = encBytes s := rfl
      have hx : pre ++ encVal (.str s) ++ post = pre ++ c :: (r ++ post) := by
        rw [henc, hcr]; simp [List.append_assoc]
      rw [decodeD, hx,
        if_neg (by simp only [List.length_append, List.length_cons]; push_cast; omega),
        pyGet_at]
      have h1 : ¬ c = 100 := by omega
      have h2 : ¬ c = 108 := by omega
      have h3 : ¬ c = 105 := by omega
      simp only [if_neg h1, if_neg h2, if_neg h3, if_pos (⟨hd1, hd2⟩ : 48 ≤ c ∧ c ≤ 57)]
      rw [← hx, henc, decodeString_enc]
  | list vs =>
      have hvs : ∀ v ∈ vs, Canonical v := by cases hc with | list _ h => exact h
      have henc := encVal_list_eq vs
      have hx : pre ++ encVal (.list vs) ++ post =
          pre ++ 108 :: (encSeq vs ++ [101] ++ post) := by
        rw [henc]; simp [List.append_assoc]
      rw [decodeD, hx,
        if_neg (by simp only [List.length_append, List.length_cons]; push_cast; omega),
        pyGet_at]
      have h1 : ¬ (108:Nat) = 100 := by omega
      simp only [if_neg h1, if_pos (rfl : (108:Nat) = 108)]
      have hx2 : pre ++ 108 :: (encSeq vs ++ [101] ++ post) =
          (pre ++ [108]) ++ encSeq vs ++ (101 :: post) := by
        simp [List.append_assoc]
      have hpos : (pre.length : Int) + 1 = (((pre ++ [108]).length : Nat) : Int) := by
        simp
      have hfl : needL vs ≤ f := by rw [needV] at hf; omega
      rw [hx2, hpos, decode_encList vs hvs (pre ++ [108]) post [] f hfl]
      refine someMk_eq (by simp) ?_
      have hlen2 : (pre ++ [108]).length + (encSeq vs).length + 1 =
          pre.length + (encVal (.list vs)).length := by
        rw [henc]
        simp only [List.length_append, List.length_cons, List.length_nil]
        omega
      exact_mod_cast hlen2
  | dict kvs =>
      have hvals : ∀ p ∈ kvs, Canonical p.2 := by cases hc with | dict _ h _ => exact h
      have hsorted : kvs.Pairwise (fun a b => a.1 < b.1) := by
        cases hc with | dict _ _ h => exact h
      have henc := encVal_dict_sorted hsorted
      have hx : pre ++ encVal (.dict kvs) ++ post =
          pre ++ 100 :: (encItems kvs ++ [101] ++ post) := by
        rw [henc]; simp [List.append_assoc]
      rw [decodeD, hx,
        if_neg (by simp only [List.length_append, List.length_cons]; push_cast; omega),
        pyGet_at]
      simp only [if_pos (rfl : (100:Nat) = 100)]
      have hx2 : pre ++ 100 :: (encItems kvs ++ [101] ++ post) =
          (pre ++ [100]) ++ encItems kvs ++ (101 :: post) := by
        simp [List.append_assoc]
      have hpos : (pre.length : Int) + 1 = (((pre ++ [100]).length : Nat) : Int) := by
        simp
      have hnd : (((([] : List (List Nat × Value))) ++ kvs).map Prod.fst).Nodup := by
        simpa using pairwiseKeyLt_nodup hsorted
      have hfd : needD kvs ≤ f := by rw [needV] at hf; omega
      rw [hx2, hpos, decode_encDict kvs hvals (pre ++ [100]) post [] f hnd hfd]
      refine someMk_eq (by simp) ?_
      have hlen2 : (pre ++ [100]).length + (encItems kvs).length + 1 =
          pre.length + (encVal (.dict kvs)).length := by
        rw [encVal_dict_length]
        simp only [List.length_append, List.length_cons, List.length_nil]
        omega
      exact_mod_cast hlen2

theorem decode_encList (vs : List Value) (hc : ∀ v ∈ vs, Canonical v)
    (pre post : List Nat) (acc : List Value) (fuel : Nat) (hf : needL vs ≤ fuel) :
    decodeD fuel (pre ++ encSeq vs ++ (101 :: post)) (pre.length : Int) (.listLoop acc) =
      some (.list (acc ++ vs), ((pre.length + (encSeq vs).length + 1 : Nat) : Int)) := by
  obtain ⟨f, rfl⟩ : ∃ f, fuel = f + 1 := ⟨fuel - 1, by have := needL_pos vs; omega⟩
  cases vs with
  | nil =>
      have hx : pre ++ encSeq [] ++ (101 :: post) = pre ++ 101 :: post := by
        rw [encSeq_nil]; simp
      rw [decodeD, hx,
        if_pos (by simp only [List.length_append, List.length_cons]; push_cast; omega),
        pyGet_at]
      simp only [if_pos (rfl : (101:Nat) = 101)]
      refine someMk_eq (by simp) ?_
      rw [encSeq_nil]
      push_cast [List.length_nil]
      omega
  | cons v vs =>
      have hv : Canonical v := hc v (by simp)
      have hvs : ∀ w ∈ vs, Canonical w := fun w hw => hc w (by simp [hw])
      obtain ⟨c, r, hcr, hc101, _⟩ := encVal_head v
      have hx : pre ++ encSeq (v :: vs) ++ (101 :: post) =
          pre ++ c :: (r ++ encSeq vs ++ 101 :: post) := by
        rw [encSeq_cons, hcr]; simp [List.append_assoc]
      rw [decodeD, hx,
        if_pos (by simp only [List.length_append, List.length_cons]; push_cast; omega),
        pyGet_at]
      simp only [if_neg hc101]
      have hx2 : pre ++ c :: (r ++ encSeq vs ++ 101 :: post) =
          pre ++ encVal v ++ (encSeq vs ++ 101 :: post) := by
        rw [hcr]; simp [List.append_assoc]
      have hfv : needV v ≤ f := by rw [needL] at hf; omega
      have hfl : needL vs ≤ f := by rw [needL] at hf; omega
      rw [hx2, decode_encVal v hv pre (encSeq vs ++ 101 :: post) f hfv]
      dsimp only
      have hpos : ((pre.length + (encVal v).length : Nat) : Int) =
          (((pre ++ encVal v).length : Nat) : Int) := by simp
      have hx3 : pre ++ encVal v ++ (encSeq vs ++ 101 :: post) =
          (pre ++ encVal v) ++ encSeq vs ++ (101 :: post) := by
        simp [List.append_assoc]
      rw [hpos, hx3, decode_encList vs hvs (pre ++ encVal v) post (acc ++ [v]) f hfl]
      refine someMk_eq (by simp) ?_
      have hlen2 : (pre ++ encVal v).length + (encSeq vs).length + 1 =
          pre.length + (encSeq (v :: vs)).length + 1 := by
        rw [encSeq_cons]
        simp only [List.length_append]
        omega
      exact_mod_cast hlen2

theorem decode_encDict (kvs : List (List Nat × Value)) (hc : ∀ p ∈ kvs, Canonical p.2)
    (pre post : List Nat) (acc : List (List Nat × Value)) (fuel : Nat)
    (hnd : ((acc ++ kvs).map Prod.fst).Nodup) (hf : needD kvs ≤ fuel) :
    decodeD fuel (pre ++ encItems kvs ++ (101 :: post)) (pre.length : Int) (.dictLoop acc) =
      some (.dict (acc ++ kvs), ((pre.length + (encItems kvs).length + 1 : Nat) : Int)) := by
  obtain ⟨f, rfl⟩ : ∃ f, fuel = f + 1 := ⟨fuel - 1, by have := needD_pos kvs; omega⟩
  cases kvs with
  | nil =>
      have hx : pre ++ encItems [] ++ (101 :: post) = pre ++ 101 :: post := by
        rw [encItems_nil]; simp
      rw [decodeD, hx,
        if_pos (by simp only [List.length_append, List.length_cons]; push_cast; omega),
        pyGet_at]
      simp only [if_pos (rfl : (101:Nat) = 101)]
      refine someMk_eq (by simp) ?_
      rw [encItems_nil]
      push_cast [List.length_nil]
      omega
  | cons p rest =>
      obtain ⟨k, v⟩ := p
      have hv : Canonical v := hc (k, v) (by simp)
      have hrest : ∀ q ∈ rest, Canonical q.2 := fun q hq => hc q (by simp [hq])
      obtain ⟨c, r, hcr, hd1, hd2⟩ := encBytes_head k
      have hc101 : ¬ c = 101 := by omega
      have hx : pre ++ encItems ((k, v) :: rest) ++ (101 :: post) =
          pre ++ c :: (r ++ (encVal v ++ encItems rest ++ 101 :: post)) := by
        rw [encItems_cons, hcr]; simp [List.append_assoc]
      rw [decodeD, hx,
        if_pos (by simp only [List.length_append, List.length_cons]; push_cast; omega),
        pyGet_at]
      simp only [if_neg hc101]
      have hx2 : pre ++ c :: (r ++ (encVal v ++ encItems rest ++ 101 :: post)) =
          pre ++ encBytes k ++ (encVal v ++ encItems rest ++ 101 :: post) := by
        rw [hcr]; simp [List.append_assoc]
      rw [hx2, decodeString_enc k pre (encVal v ++ encItems rest ++ 101 :: post)]
      dsimp only
      have hpos : ((pre.length + (encBytes k).length : Nat) : Int) =
          ((((pre ++ encBytes k)).length : Nat) : Int) := by simp
      have hx3 : pre ++ encBytes k ++ (encVal v ++ encItems rest ++ 101 :: post) =
          (pre ++ encBytes k) ++ encVal v ++ (encItems rest ++ 101 :: post) := by
        simp [List.append_assoc]
      have hfv : needV v ≤ f := by rw [needD] at hf; omega
      rw [hpos, hx3, decode_encVal v hv (pre ++ encBytes k)
        (encItems rest ++ 101 :: post) f hfv]
      dsimp only
      have hknotin : k ∉ acc.map Prod.fst := by
        intro hk
        rw [List.map_append] at hnd
        exact List.disjoint_of_nodup_append hnd hk (by simp)
      rw [pyDictInsert_append acc k v hknotin]
      have hpos2 : (((pre ++ encBytes k).length + (encVal v).length : Nat) : Int) =
          ((((pre ++ encBytes k ++ encVal v)).length : Nat) : Int) := by
        push_cast [List.length_append]
        omega
      have hx4 : (pre ++ encBytes k) ++ encVal v ++ (encItems rest ++ 101 :: post) =
          (pre ++ encBytes k ++ encVal v) ++ encItems rest ++ (101 :: post) := by
        simp [List.append_assoc]
      have hnd2 : (((acc ++ [(k, v)]) ++ rest).map Prod.fst).Nodup := by
        have hre : (acc ++ [(k, v)]) ++ rest = acc ++ ((k, v) :: rest) := by simp
        rw [hre]; exact hnd
      have hfd : needD rest ≤ f := by rw [needD] at hf; omega
      rw [hpos2, hx4, decode_encDict rest hrest (pre ++ encBytes k ++ encVal v) post
        (acc ++ [(k, v)]) f hnd2 hfd]
      refine someMk_eq (by simp) ?_
      have hlen2 : (pre ++ encBytes k ++ encVal v).length + (encItems rest).length + 1 =
          pre.length + (encItems ((k, v) :: rest)).length + 1 := by
        rw [encItems_cons]
        simp only [List.length_append]
        omega
      exact_mod_cast hlen2
end

/-- Parsing an encoded canonical value at offset 0 with any trailing bytes:
the decoder returns the value and ignores what follows. -/
theorem decode_withTrailing (v : Value) (hc : Canonical v) (g : List Nat) :
    _decode_bencode (_encode_bencode v ++ g) = some v := by
  have hfuel : needV v ≤ (encVal v ++ g).length + 1 := by
    have := needV_le v
    simp only [List.length_append]
    omega
  have h := decode_encVal v hc [] g ((encVal v ++ g).length + 1) hfuel
  simp only [List.nil_append, List.length_nil, Nat.cast_zero] at h
  rw [_encode_bencode, _decode_bencode, h]

/-- Round trip: decoding the canonical encoding returns the value itself. -/
theorem decode_encode (v : Value) (hc : Canonical v) :
    _decode_bencode (_encode_bencode v) = some v := by
  have h := decode_withTrailing v hc []
  rw [List.append_nil] at h
  exact h

/-- The unterminated-list loop: parsing list elements that run to the end of
the buffer (no closing `e`) still succeeds, treating end of input as the
terminator. -/
theorem decode_encList_end (vs : List Value) (hc : ∀ v ∈ vs, Canonical v) :
    ∀ (pre : List Nat) (acc : List Value) (fuel : Nat), needL vs ≤ fuel →
    decodeD fuel (pre ++ encSeq vs) (pre.length : Int) (.listLoop acc) =
      some (.list (acc ++ vs), ((pre.length + (encSeq vs).length + 1 : Nat) : Int)) := by
  induction vs with
  | nil =>
      intro pre acc fuel hf
      obtain ⟨f, rfl⟩ : ∃ f, fuel = f + 1 := ⟨fuel - 1, by have := needL_pos []; omega⟩
      have hx : pre ++ encSeq [] = pre := by rw [encSeq_nil]; simp
      rw [decodeD, hx, if_neg (by omega)]
      refine someMk_eq (by simp) ?_
      rw [encSeq_nil]
      push_cast [List.length_nil]
      omega
  | cons v vs ih =>
      intro pre acc fuel hf
      obtain ⟨f, rfl⟩ : ∃ f, fuel = f + 1 := ⟨fuel - 1, by have := needL_pos (v :: vs); omega⟩
      have hv : Canonical v := hc v (by simp)
      have hvs : ∀ w ∈ vs, Canonical w := fun w hw => hc w (by simp [hw])
      obtain ⟨c, r, hcr, hc101, _⟩ := encVal_head v
      have hx : pre ++ encSeq (v :: vs) = pre ++ c :: (r ++ encSeq vs) := by
        rw [encSeq_cons, hcr]; simp [List.append_assoc]
      rw [decodeD, hx,
        if_pos (by simp only [List.length_append, List.length_cons]; push_cast; omega),
        pyGet_at]
      simp only [if_neg hc101]
      have hx2 : pre ++ c :: (r ++ encSeq vs) = pre ++ encVal v ++ encSeq vs := by
        rw [hcr]; simp [List.append_assoc]
      have hfv : needV v ≤ f := by rw [needL] at hf; omega
      have hfl : needL vs ≤ f := by rw [needL] at hf; omega
      rw [hx2, decode_encVal v hv pre (encSeq vs) f hfv]
      dsimp only
      have hpos : ((pre.length + (encVal v).length : Nat) : Int) =
          (((pre ++ encVal v).length : Nat) : Int) := by simp
      rw [hpos, ih hvs (pre ++ encVal v) (acc ++ [v]) f hfl]
      refine someMk_eq (by simp) ?_
      have hlen2 : (pre ++ encVal v).length + (encSeq vs).length + 1 =
          pre.length + (encSeq (v :: vs)).length + 1 := by
        rw [encSeq_cons]
        simp only [List.length_append]
        omega
      exact_mod_cast hlen2

/-- A list opened with `l` whose elements run to the end of the input (no
closing `e`) is decoded successfully to the list of its elements. -/
theorem decode_unterminated_list (vs : List Value) (hc : ∀ v ∈ vs, Canonical v) :
    _decode_bencode (108 :: encSeq vs) = some (.list vs) := by
  rw [_decode_bencode]
  have hx : (108 :: encSeq vs) = [] ++ 108 :: encSeq vs := rfl
  obtain ⟨f, hfeq⟩ : ∃ f, (108 :: encSeq vs).length + 1 = f + 1 :=
    ⟨(108 :: encSeq vs).length, rfl⟩
  rw [hfeq, decodeD, hx]
  have h0 : (0 : Int) = (([] : List Nat).length : Int) := by simp
  rw [h0, pyGet_at]
  have h1 : ¬ (108:Nat) = 100 := by omega
  simp only [if_neg h1, if_pos (rfl : (108:Nat) = 108),
    if_neg (by simp only [List.nil_append, List.length_cons]; push_cast; omega :
      ¬ (((([] ++ 108 :: encSeq vs) : List Nat).length : Int) ≤ (([] : List Nat).length : Int)))]
  have hx2 : [] ++ 108 :: encSeq vs = [108] ++ encSeq vs := by simp
  have hpos : ((([] : List Nat).length : Int)) + 1 = (([108] : List Nat).length : Int) := by
    simp
  have hfl : needL vs ≤ f := by
    have h1 := needL_le vs
    have : f = (108 :: encSeq vs).length := by omega
    rw [this]
    simp only [List.length_cons]
    omega
  rw [hx2, hpos, decode_encList_end vs hc [108] [] f hfl]
  rfl

/-- C1.  For every byte sequence that is the canonical bencode encoding of a
Value (all dictionaries in strictly ascending key order), `_decode_bencode`
followed by `_encode_bencode` reproduces the original bytes exactly. -/
theorem C1_canonical_roundtrip : ∀ s : List Nat,
    (∃ v, Canonical v ∧ s = _encode_bencode v) →
    ∃ w, _decode_bencode s = some w ∧ _encode_bencode w = s := by
  rintro s ⟨v, hc, rfl⟩
  exact ⟨v, decode_encode v hc, rfl⟩

/-- Witness for C1 at the concrete canonical input `d1:ai1e1:b1:xe`. -/
theorem C1_witness :
    ∃ w, _decode_bencode (_encode_bencode (.dict [([97], .int 1), ([98], .str [120])])) =
        some w ∧
      _encode_bencode w = _encode_bencode (.dict [([97], .int 1), ([98], .str [120])]) := by
  refine C1_canonical_roundtrip _ ⟨.dict [([97], .int 1), ([98], .str [120])], ?_, rfl⟩
  refine Canonical.dict _ ?_ ?_
  · intro p hp
    rcases List.mem_cons.mp hp with rfl | hp
    · exact Canonical.int 1
    · rcases List.mem_cons.mp hp with rfl | hp
      · exact Canonical.str [120]
      · cases hp
  · refine List.Pairwise.cons ?_ (List.pairwise_singleton _ _)
    intro b hb
    rcases List.mem_singleton.mp hb with rfl
    decide

/-- C3 counterexample: decoding `i-0e` does NOT fail — `int(b"-0")` evaluates
to `0`, so the fallback decoder returns the integer 0. -/
theorem C3_counterexample : _decode_bencode [105, 45, 48, 101] = some (.int 0) := rfl

/-- C3 amended: decoding `i-0e` succeeds and yields the integer 0 (negative
zero is accepted by the fallback decoder), while decoding `5:ab` (declared
length exceeding the remaining buffer) fails with an error result (`none`),
neither a crash nor a silently-empty success. -/
theorem C3_amended :
    _decode_bencode [105, 45, 48, 101] = some (.int 0) ∧
    _decode_bencode [53, 58, 97, 98] = none := ⟨rfl, rfl⟩

/-- C7 counterexample: an unterminated list (`l` with no closing `e`) decodes
successfully to the empty list, and trailing bytes after a complete top-level
value (`i1eZ`) are ignored — neither input yields a decode failure. -/
theorem C7_counterexample :
    _decode_bencode [108] = some (.list []) ∧
    _decode_bencode [105, 49, 101, 90] = some (.int 1) := ⟨rfl, rfl⟩

/-- C7 amended: the fallback decoder treats end of input as a container
terminator and ignores trailing bytes: decoding the encoding of any canonical
value followed by arbitrary garbage returns that value, and decoding `l`
followed by encoded elements with no closing `e` returns the list of those
elements. -/
theorem C7_amended :
    (∀ v, Canonical v → ∀ g, _decode_bencode (_encode_bencode v ++ g) = some v) ∧
    (∀ vs, (∀ v ∈ vs, Canonical v) →
      _decode_bencode (108 :: encSeq vs) = some (.list vs)) :=
  ⟨fun v hc g => decode_withTrailing v hc g, fun vs hc => decode_unterminated_list vs hc⟩

/-- Witness for C7 at concrete inputs `i7eZ` and `li7e` (no closing `e`). -/
theorem C7_witness :
    _decode_bencode (_encode_bencode (.int 7) ++ [90]) = some (.int 7) ∧
    _decode_bencode (108 :: encSeq [.int 7]) = some (.list [.int 7]) :=
  ⟨C7_amended.1 (.int 7) (Canonical.int 7) [90],
   C7_amended.2 [.int 7] (fun v hv => by
      rcases List.mem_singleton.mp hv with rfl
      exact Canonical.int 7)⟩

/-! ### Order-independence of the canonical dictionary encoding -/

/-- Strict key order on encoded pairs. -/
def pairLt (a b : (List Nat × List Nat)) : Prop := a.1 < b.1

instance : IsAntisymm (List Nat × List Nat) pairLt :=
  ⟨fun _ _ h1 h2 => absurd h2 (lt_asymm h1)⟩

theorem encPairs_keys (l : List (List Nat × Value)) :
    (encPairs l).map Prod.fst = l.map Prod.fst := by
  rw [encPairs_eq_map, List.map_map]
  rfl

theorem sorted_pairs_lt {l : List (List Nat × List Nat)}
    (hnd : (l.map Prod.fst).Nodup) : (sortPairs l).Pairwise pairLt := by
  have hs : List.Sorted pairLe (sortPairs l) := List.sorted_insertionSort pairLe l
  have hperm : (sortPairs l).Perm l := List.perm_insertionSort pairLe l
  have hnd' : ((sortPairs l).map Prod.fst).Nodup :=
    ((hperm.map Prod.fst).nodup_iff).mpr hnd
  have hne : (sortPairs l).Pairwise (fun a b => a.1 ≠ b.1) :=
    List.pairwise_map.mp hnd'
  exact (List.Pairwise.and hs hne).imp (fun h => lt_of_le_of_ne h.1 h.2)

theorem encVal_dict_eq (kvs : List (List Nat × Value)) :
    encVal (.dict kvs) = 100 :: (flattenPairs (sortPairs (encPairs kvs)) ++ [101]) := rfl

/-- Two dicts holding the same key/value pairs in different insertion order
(keys unique, as in a Python dict) encode to identical bytes. -/
theorem encode_dict_perm (d1 d2 : List (List Nat × Value)) (hp : d1.Perm d2)
    (hnd : (d1.map Prod.fst).Nodup) :
    _encode_bencode (.dict d1) = _encode_bencode (.dict d2) := by
  have hnd2 : (d2.map Prod.fst).Nodup := ((hp.map Prod.fst).nodup_iff).mp hnd
  have hpk : (encPairs d1).Perm (encPairs d2) := by
    rw [encPairs_eq_map, encPairs_eq_map]
    exact hp.map _
  have heq : sortPairs (encPairs d1) = sortPairs (encPairs d2) := by
    apply List.eq_of_perm_of_sorted (r := pairLt)
    · exact (List.perm_insertionSort pairLe (encPairs d1)).trans
        (hpk.trans (List.perm_insertionSort pairLe (encPairs d2)).symm)
    · exact sorted_pairs_lt (by rw [encPairs_keys]; exact hnd)
    · exact sorted_pairs_lt (by rw [encPairs_keys]; exact hnd2)
  rw [_encode_bencode, _encode_bencode, encVal_dict_eq, encVal_dict_eq, heq]

/-- C2.  Encoding is insertion-order independent for dictionaries with equal
key/value sets, and consequently any digest (e.g. the lowercase-hex SHA-1 used
for the info hash, modelled as an arbitrary function of the encoded bytes)
computed from the canonical re-encoding is identical. -/
theorem C2_order_independence : ∀ (sha1hex : List Nat → List Nat)
    (d1 d2 : List (List Nat × Value)), d1.Perm d2 → (d1.map Prod.fst).Nodup →
    _encode_bencode (.dict d1) = _encode_bencode (.dict d2) ∧
    sha1hex (_encode_bencode (.dict d1)) = sha1hex (_encode_bencode (.dict d2)) := by
  intro h d1 d2 hp hnd
  have he := encode_dict_perm d1 d2 hp hnd
  exact ⟨he, congrArg h he⟩

/-- Witness for C2 at two concrete two-key dicts in opposite insertion order. -/
theorem C2_witness :
    _encode_bencode (.dict [([97], .int 1), ([98], .int 2)]) =
      _encode_bencode (.dict [([98], .int 2), ([97], .int 1)]) ∧
    (fun b : List Nat => b) (_encode_bencode (.dict [([97], .int 1), ([98], .int 2)])) =
      (fun b : List Nat => b) (_encode_bencode (.dict [([98], .int 2), ([97], .int 1)])) :=
  C2_order_independence (fun b => b)
    [([97], .int 1), ([98], .int 2)] [([98], .int 2), ([97], .int 1)]
    (List.Perm.swap ([98], Value.int 2) ([97], Value.int 1) [])
    (by simp)

/-! ### Metadata extraction (`_extract_file_info`) and the file verifier -/

def isCont (b : Nat) : Bool := 128 ≤ b && b < 192

/-- Worker for `bytes.decode("utf-8", errors="ignore")`; the fuel (at least
the byte count) makes the recursion structural, one byte consumed per step. -/
def decodeUtf8Go : Nat → List Nat → List Nat
  | 0, _ => []
  | _ + 1, [] => []
  | fuel + 1, b1 :: rest =>
      if b1 < 128 then b1 :: decodeUtf8Go fuel rest
      else if 194 ≤ b1 && b1 ≤ 223 then
        match rest with
        | b2 :: r2 =>
            if isCont b2 then ((b1 - 192) * 64 + (b2 - 128)) :: decodeUtf8Go fuel r2
            else decodeUtf8Go fuel rest
        | [] => []
      else if 224 ≤ b1 && b1 ≤ 239 then
        match rest with
        | b2 :: b3 :: r3 =>
            if isCont b2 && isCont b3 then
              ((b1 - 224) * 4096 + (b2 - 128) * 64 + (b3 - 128)) :: decodeUtf8Go fuel r3
            else decodeUtf8Go fuel rest
        | _ => []
      else if 240 ≤ b1 && b1 ≤ 244 then
        match rest with
        | b2 :: b3 :: b4 :: r4 =>
            if isCont b2 && isCont b3 && isCont b4 then
              ((b1 - 240) * 262144 + (b2 - 128) * 4096 + (b3 - 128) * 64 + (b4 - 128)) ::
                decodeUtf8Go fuel r4
            else decodeUtf8Go fuel rest
        | _ => []
      else decodeUtf8Go fuel rest

/-- Model of `bytes.decode("utf-8", errors="ignore")`: well-formed sequences decode to
their code points, a malformed leading byte is skipped, a truncated trailing
sequence is dropped.  On ASCII input (all that the torrent claims exercise)
this is the identity. -/
def decodeUtf8Ignore (s : List Nat) : List Nat := decodeUtf8Go s.length s

/-- Bytes of `b"files"`. -/
def filesKey : List Nat := [102, 105, 108, 101, 115]

/-- Bytes of `b"name"`. -/
def nameKey : List Nat := [110, 97, 109, 101]

/-- Bytes of `b"length"`. -/
def lengthKey : List Nat := [108, 101, 110, 103, 116, 104]

/-- Bytes of `b"piece length"`. -/
def pieceKey : List Nat := [112, 105, 101, 99, 101, 32, 108, 101, 110, 103, 116, 104]

/-- Bytes of `b"path"`. -/
def pathKey : List Nat := [112, 97, 116, 104]

/-- Bytes of `b"info"`. -/
def infoKey : List Nat := [105, 110, 102, 111]

/-- Lookup in a decoded dict (keys unique, first binding returned). -/
def dictGet? : List (List Nat × Value) → List Nat → Option Value
  | [], _ => none
  | (k0, v0) :: rest, k => if k0 = k then some v0 else dictGet? rest k

/-- Python `d.get(key, default)`. -/
def pyGetDefault (kvs : List (List Nat × Value)) (k : List Nat) (d : Value) : Value :=
  (dictGet? kvs k).getD d

/-- Model of `os.path.join(a, b)` for POSIX paths over decoded text: an absolute `b`
replaces `a`; otherwise a separator is inserted unless `a` is empty or already
ends in one. -/
def pathJoin2 (a b : List Nat) : List Nat :=
  if b.head? = some 47 then b
  else if a = [] then b
  else if a.getLast? = some 47 then a ++ b
  else a ++ 47 :: b

/-- Model of `os.path.join(base, *parts)`. -/
def pathJoinList (base : List Nat) (parts : List (List Nat)) : List Nat :=
  parts.foldl pathJoin2 base

/-- One element of `self.files`: decoded path text, declared length and piece
length as decoded values (the code never type-checks them). -/
structure FileEntry where
  path : List Nat
  length : Value
  piece_length : Value

/-- Python `+` on decoded values, as used by `total_size += file_info[b'length']`;
`none` models the `TypeError` on mixed shapes. -/
def pyAdd : Value → Value → Option Value
  | .int a, .int b => some (.int (a + b))
  | .str a, .str b => some (.str (a ++ b))
  | .list a, .list b => some (.list (a ++ b))
  | _, _ => none

/-- Model of the comprehension `[p.decode("utf-8", errors="ignore") for p in parts]`: every element must
be bytes, else the comprehension raises. -/
def decodeParts : List Value → Option (List (List Nat))
  | [] => some []
  | .str s :: rest => (decodeParts rest).map (fun t => decodeUtf8Ignore s :: t)
  | _ => none

/-- Iterating `file_info[b'path']`: a list yields its elements (each must be
bytes), a dict yields its byte-string keys, bytes yield integers (whose
`.decode` raises) and an integer is not iterable. -/
def pathParts? : Value → Option (List (List Nat))
  | .list parts => decodeParts parts
  | .dict kvs => some (kvs.map (fun p => decodeUtf8Ignore p.1))
  | _ => none

/-- Iterating `info[b'files']`: a list yields its elements, a dict its
byte-string keys (wrapped back as values), bytes yield integers, an integer
raises `TypeError`. -/
def pyIterItems : Value → Option (List Value)
  | .list l => some l
  | .dict kvs => some (kvs.map (fun p => .str p.1))
  | .str s => some (s.map (fun b => .int (b : Int)))
  | .int _ => none

/-- The `for file_info in info[b'files']` loop of `_extract_file_info`:
each element must be a dict with `path` (an iterable of byte strings) and
`length`; the entry is appended and `length` added to the running total.
`none` models any raised exception. -/
def extractLoop : List Value → List Nat → Value → List FileEntry → Value →
    Option (List FileEntry × Value)
  | [], _, _, acc, tot => some (acc, tot)
  | fi :: rest, base, pl, acc, tot =>
      match fi with
      | .dict fd =>
          match dictGet? fd pathKey with
          | none => none
          | some pv =>
              match pathParts? pv with
              | none => none
              | some parts =>
                  match dictGet? fd lengthKey with
                  | none => none
                  | some lv =>
                      match pyAdd tot lv with
                      | none => none
                      | some tot2 =>
                          extractLoop rest base pl
                            (acc ++ [⟨pathJoinList base parts, lv, pl⟩]) tot2
      | _ => none

/-- Model of `_extract_file_info` on the `info` dict: single-entry mode (no `files`
key) reads `name`/`length`/`piece length` with `.get` defaults; multi-entry
mode joins `name` with each `path` and sums the lengths.  Returns the
`(files, total_size)` the method stores on `self`; `none` models a raised
exception. -/
def _extract_file_info (info : List (List Nat × Value)) :
    Option (List FileEntry × Value) :=
  match dictGet? info filesKey with
  | none =>
      match pyGetDefault info nameKey (.str []) with
      | .str nm =>
          some ([⟨decodeUtf8Ignore nm, pyGetDefault info lengthKey (.int 0),
                  pyGetDefault info pieceKey (.int 0)⟩],
                pyGetDefault info lengthKey (.int 0))
      | _ => none
  | some filesVal =>
      match pyGetDefault info nameKey (.str []) with
      | .str nm =>
          match pyIterItems filesVal with
          | none => none
          | some fl =>
              extractLoop fl (decodeUtf8Ignore nm)
                (pyGetDefault info pieceKey (.int 0)) [] (.int 0)
      | _ => none

/-- Abstract filesystem snapshot for `verify_files_exist`: `os.path.exists`
never raises (it returns `False` on any error), while `os.path.getsize`
returning `none` models a raised `OSError`. -/
structure FS where
  exists? : List Nat → Bool
  getsize : List Nat → Option Nat

structure MissItem where
  path : List Nat
  expected_size : Value

structure MismatchItem where
  path : List Nat
  expected_size : Value
  actual_size : Nat

structure ValidItem where
  path : List Nat
  size : Value

/-- The `results` dict of `verify_files_exist`. -/
structure Report where
  missing : List MissItem
  size_mismatch : List MismatchItem
  valid : List ValidItem

/-- Python `actual_size != file_info['length']`: comparison of an int with a
non-int value is simply unequal (no exception). -/
def sizeNe (sz : Nat) (v : Value) : Bool :=
  match v with
  | .int n => !(n == (sz : Int))
  | _ => true

/-- The `for file_info in self.files` loop of `verify_files_exist`; an
exception from `getsize` (`none`) aborts the whole pass. -/
def verifyLoop (fs : FS) (bd : List Nat) : List FileEntry → Report → Option Report
  | [], acc => some acc
  | f :: rest, acc =>
      match fs.exists? (pathJoin2 bd f.path) with
      | false =>
          verifyLoop fs bd rest
            ⟨acc.missing ++ [⟨pathJoin2 bd f.path, f.length⟩], acc.size_mismatch, acc.valid⟩
      | true =>
          match fs.getsize (pathJoin2 bd f.path) with
          | none => none
          | some sz =>
              match sizeNe sz f.length with
              | true =>
                  verifyLoop fs bd rest
                    ⟨acc.missing, acc.size_mismatch ++ [⟨pathJoin2 bd f.path, f.length, sz⟩],
                      acc.valid⟩
              | false =>
                  verifyLoop fs bd rest
                    ⟨acc.missing, acc.size_mismatch,
                      acc.valid ++ [⟨pathJoin2 bd f.path, f.length⟩]⟩

/-- Model of `verify_files_exist(base_dir)` over an abstract filesystem snapshot;
`none` models an uncaught exception escaping the method. -/
def verify_files_exist (files : List FileEntry) (base_dir : List Nat) (fs : FS) :
    Option Report :=
  verifyLoop fs base_dir files ⟨[], [], []⟩

/-- Python truthiness of a decoded value (`if not self.torrent_data`). -/
def pyFalsy : Value → Bool
  | .int n => n == 0
  | .str s => s.isEmpty
  | .list l => l.isEmpty
  | .dict d => d.isEmpty

/-- Byte-substring test (`needle in haystack` for bytes). -/
def isSub (needle : List Nat) : List Nat → Bool
  | [] => needle.isEmpty
  | b :: t => ((b :: t).take needle.length == needle) || isSub needle t

/-- Python `b'info' in td`: key test for a dict, substring test for bytes,
element equality for a list; `none` models the `TypeError` on an int. -/
def pyContains : Value → List Nat → Option Bool
  | .dict kvs, k => some (dictGet? kvs k).isSome
  | .str s, k => some (isSub k s)
  | .list l, k =>
      some (l.any (fun v => match v with | .str s => s == k | _ => false))
  | .int _, _ => none

/-- Python `td[b'info']`: only a dict supports byte-string subscripts; bytes,
lists and ints raise `TypeError` (`none`). -/
def pyIndexVal : Value → List Nat → Option Value
  | .dict kvs, k => dictGet? kvs k
  | _, _ => none

/-- Behaviour of `_extract_file_info` reached through `self.info`: a non-dict `info` value
raises on its first `.get`/subscript, so only a dict can succeed. -/
def extractFromValue : Value → Option (List FileEntry × Value)
  | .dict kvs => _extract_file_info kvs
  | _ => none

/-- The state `load_torrent` stores on `self` when it returns `True`. -/
structure LoadedState where
  torrent_data : Value
  info : Value
  info_hash : List Nat
  files : List FileEntry
  total_size : Value

/-- Model of `load_torrent` (fallback path): read the file (`none` input models a
missing/unreadable file), decode, reject falsy results, require `b'info' in`
the root, hash the canonical re-encoding of `info` (the SHA-1 hex digest is
abstracted as a pure function of the encoded bytes) and extract the file
list.  Any failure is caught and yields `none` (the method returns `False`);
`some` corresponds to returning `True` with the state fully constructed. -/
def load_torrent (sha1hex : List Nat → List Nat) (fileData : Option (List Nat)) :
    Option LoadedState :=
  match fileData with
  | none => none
  | some data =>
      match _decode_bencode data with
      | none => none
      | some td =>
          if pyFalsy td then none
          else
            match pyContains td infoKey with
            | none => none
            | some false => none
            | some true =>
                match pyIndexVal td infoKey with
                | none => none
                | some info =>
                    match extractFromValue info with
                    | none => none
                    | some (fl, tot) =>
                        some ⟨td, info, sha1hex (_encode_bencode info), fl, tot⟩

example :
    _extract_file_info [(lengthKey, .int 5), (nameKey, .str [97])] =
      some ([⟨[97], .int 5, .int 0⟩], .int 5) := rfl
example :
    _extract_file_info [(filesKey, .list []), (nameKey, .str [97])] =
      some ([], .int 0) := rfl

/-! ### Classification predicates and the verifier loop invariant -/

def missP (fs : FS) (bd : List Nat) (f : FileEntry) : Bool :=
  !(fs.exists? (pathJoin2 bd f.path))

def mismP (fs : FS) (bd : List Nat) (f : FileEntry) : Bool :=
  fs.exists? (pathJoin2 bd f.path) &&
    (match fs.getsize (pathJoin2 bd f.path) with
     | some sz => sizeNe sz f.length
     | none => false)

def validP (fs : FS) (bd : List Nat) (f : FileEntry) : Bool :=
  fs.exists? (pathJoin2 bd f.path) &&
    (match fs.getsize (pathJoin2 bd f.path) with
     | some sz => !(sizeNe sz f.length)
     | none => false)

theorem verifyLoop_some (fs : FS) (bd : List Nat) : ∀ (files : List FileEntry)
    (acc r : Report), verifyLoop fs bd files acc = some r →
    r.missing = acc.missing ++
      (files.filter (missP fs bd)).map (fun f => ⟨pathJoin2 bd f.path, f.length⟩) ∧
    r.size_mismatch = acc.size_mismatch ++
      (files.filter (mismP fs bd)).map (fun f =>
        ⟨pathJoin2 bd f.path, f.length, (fs.getsize (pathJoin2 bd f.path)).getD 0⟩) ∧
    r.valid = acc.valid ++
      (files.filter (validP fs bd)).map (fun f => ⟨pathJoin2 bd f.path, f.length⟩) ∧
    r.missing.length + r.size_mismatch.length + r.valid.length =
      acc.missing.length + acc.size_mismatch.length + acc.valid.length + files.length := by
  intro files
  induction files with
  | nil =>
      intro acc r h
      rw [verifyLoop] at h
      injection h with h
      subst h
      simp
  | cons f rest ih =>
      intro acc r h
      rw [verifyLoop] at h
      cases hex : fs.exists? (pathJoin2 bd f.path) with
      | false =>
          rw [hex] at h
          dsimp only at h
          obtain ⟨h1, h2, h3, h4⟩ := ih _ r h
          have hm : missP fs bd f = true := by simp [missP, hex]
          have hmm : mismP fs bd f = false := by simp [mismP, hex]
          have hv : validP fs bd f = false := by simp [validP, hex]
          refine ⟨?_, ?_, ?_, ?_⟩
          · rw [h1]; simp [List.filter_cons, hm]
          · rw [h2]; simp [List.filter_cons, hmm]
          · rw [h3]; simp [List.filter_cons, hv]
          · rw [h4]; simp; omega
      | true =>
          rw [hex] at h
          dsimp only at h
          cases hgs : fs.getsize (pathJoin2 bd f.path) with
          | none => rw [hgs] at h; dsimp only at h; cases h
          | some sz =>
              rw [hgs] at h
              dsimp only at h
              cases hne : sizeNe sz f.length with
              | true =>
                  rw [hne] at h
                  dsimp only at h
                  obtain ⟨h1, h2, h3, h4⟩ := ih _ r h
                  have hm : missP fs bd f = false := by simp [missP, hex]
                  have hmm : mismP fs bd f = true := by simp [mismP, hex, hgs, hne]
                  have hv : validP fs bd f = false := by simp [validP, hex, hgs, hne]
                  refine ⟨?_, ?_, ?_, ?_⟩
                  · rw [h1]; simp [List.filter_cons, hm]
                  · rw [h2]; simp [List.filter_cons, hmm, hgs]
                  · rw [h3]; simp [List.filter_cons, hv]
                  · rw [h4]; simp; omega
              | false =>
                  rw [hne] at h
                  dsimp only at h
                  obtain ⟨h1, h2, h3, h4⟩ := ih _ r h
                  have hm : missP fs bd f = false := by simp [missP, hex]
                  have hmm : mismP fs bd f = false := by simp [mismP, hex, hgs, hne]
                  have hv : validP fs bd f = true := by simp [validP, hex, hgs, hne]
                  refine ⟨?_, ?_, ?_, ?_⟩
                  · rw [h1]; simp [List.filter_cons, hm]
                  · rw [h2]; simp [List.filter_cons, hmm]
                  · rw [h3]; simp [List.filter_cons, hv]
                  · rw [h4]; simp; omega

theorem verifyLoop_sizes (fs : FS) (bd : List Nat) : ∀ (files : List FileEntry)
    (acc r : Report), verifyLoop fs bd files acc = some r →
    ∀ f ∈ files, fs.exists? (pathJoin2 bd f.path) = true →
      (fs.getsize (pathJoin2 bd f.path)).isSome := by
  intro files
  induction files with
  | nil => intro acc r h f hf; cases hf
  | cons g rest ih =>
      intro acc r h f hf hex
      rw [verifyLoop] at h
      rcases List.mem_cons.mp hf with rfl | hf
      · rw [hex] at h
        dsimp only at h
        cases hgs : fs.getsize (pathJoin2 bd f.path) with
        | none => rw [hgs] at h; dsimp only at h; cases h
        | some sz => simp [hgs]
      · cases hexg : fs.exists? (pathJoin2 bd g.path) with
        | false =>
            rw [hexg] at h
            dsimp only at h
            exact ih _ r h f hf hex
        | true =>
            rw [hexg] at h
            dsimp only at h
            cases hgs : fs.getsize (pathJoin2 bd g.path) with
            | none => rw [hgs] at h; dsimp only at h; cases h
            | some sz =>
                rw [hgs] at h
                dsimp only at h
                cases hne : sizeNe sz g.length with
                | true => rw [hne] at h; dsimp only at h; exact ih _ r h f hf hex
                | false => rw [hne] at h; dsimp only at h; exact ih _ r h f hf hex

theorem verifyLoop_none (fs : FS) (bd : List Nat) : ∀ (files : List FileEntry)
    (acc : Report), verifyLoop fs bd files acc = none ↔
    ∃ f ∈ files, fs.exists? (pathJoin2 bd f.path) = true ∧
      fs.getsize (pathJoin2 bd f.path) = none := by
  intro files
  induction files with
  | nil => intro acc; rw [verifyLoop]; simp
  | cons f rest ih =>
      intro acc
      rw [verifyLoop]
      cases hex : fs.exists? (pathJoin2 bd f.path) with
      | false =>
          dsimp only
          rw [ih]
          constructor
          · rintro ⟨g, hg, h1, h2⟩; exact ⟨g, by simp [hg], h1, h2⟩
          · rintro ⟨g, hg, h1, h2⟩
            rcases List.mem_cons.mp hg with rfl | hg
            · rw [hex] at h1; cases h1
            · exact ⟨g, hg, h1, h2⟩
      | true =>
          dsimp only
          cases hgs : fs.getsize (pathJoin2 bd f.path) with
          | none =>
              dsimp only
              simp only [true_iff]
              exact ⟨f, by simp, hex, hgs⟩
          | some sz =>
              dsimp only
              cases hne : sizeNe sz f.length with
              | true =>
                  dsimp only
                  rw [ih]
                  constructor
                  · rintro ⟨g, hg, h1, h2⟩; exact ⟨g, by simp [hg], h1, h2⟩
                  · rintro ⟨g, hg, h1, h2⟩
                    rcases List.mem_cons.mp hg with rfl | hg
                    · rw [hgs] at h2; cases h2
                    · exact ⟨g, hg, h1, h2⟩
              | false =>
                  dsimp only
                  rw [ih]
                  constructor
                  · rintro ⟨g, hg, h1, h2⟩; exact ⟨g, by simp [hg], h1, h2⟩
                  · rintro ⟨g, hg, h1, h2⟩
                    rcases List.mem_cons.mp hg with rfl | hg
                    · rw [hgs] at h2; cases h2
                    · exact ⟨g, hg, h1, h2⟩

/-- C5.  When `verify_files_exist` returns a report, it partitions the entry
list: each sequence is exactly the in-order selection of entries satisfying
its classification predicate, the three lengths sum to the number of entries,
and every entry satisfies exactly one of the three predicates. -/
theorem C5_report_partition : ∀ (files : List FileEntry) (bd : List Nat) (fs : FS)
    (r : Report), verify_files_exist files bd fs = some r →
    r.missing =
      (files.filter (missP fs bd)).map (fun f => ⟨pathJoin2 bd f.path, f.length⟩) ∧
    r.size_mismatch =
      (files.filter (mismP fs bd)).map (fun f =>
        ⟨pathJoin2 bd f.path, f.length, (fs.getsize (pathJoin2 bd f.path)).getD 0⟩) ∧
    r.valid =
      (files.filter (validP fs bd)).map (fun f => ⟨pathJoin2 bd f.path, f.length⟩) ∧
    r.missing.length + r.size_mismatch.length + r.valid.length = files.length ∧
    ∀ f ∈ files,
      (missP fs bd f).toNat + (mismP fs bd f).toNat + (validP fs bd f).toNat = 1 := by
  intro files bd fs r h
  rw [verify_files_exist] at h
  obtain ⟨h1, h2, h3, h4⟩ := verifyLoop_some fs bd files ⟨[], [], []⟩ r h
  refine ⟨by simpa using h1, by simpa using h2, by simpa using h3, by simpa using h4, ?_⟩
  intro f hf
  cases hex : fs.exists? (pathJoin2 bd f.path) with
  | false => simp [missP, mismP, validP, hex]
  | true =>
      have hs := verifyLoop_sizes fs bd files ⟨[], [], []⟩ r h f hf hex
      obtain ⟨sz, hgs⟩ := Option.isSome_iff_exists.mp hs
      cases hne : sizeNe sz f.length with
      | true => simp [missP, mismP, validP, hex, hgs, hne]
      | false => simp [missP, mismP, validP, hex, hgs, hne]

def filesC5 : List FileEntry :=
  [⟨[97], .int 1, .int 0⟩, ⟨[98], .int 2, .int 0⟩, ⟨[99], .int 3, .int 0⟩]

def fsC5 : FS :=
  ⟨fun p => p == [46, 47, 98] || p == [46, 47, 99],
   fun p => if p == [46, 47, 98] then some 5 else if p == [46, 47, 99] then some 3 else none⟩

def rC5 : Report :=
  ⟨[⟨[46, 47, 97], .int 1⟩], [⟨[46, 47, 98], .int 2, 5⟩], [⟨[46, 47, 99], .int 3⟩]⟩

/-- Witness for C5: one missing, one size-mismatched and one valid entry. -/
theorem C5_witness :
    rC5.missing.length + rC5.size_mismatch.length + rC5.valid.length = filesC5.length :=
  (C5_report_partition filesC5 [46] fsC5 rC5 rfl).2.2.2.1

/-- C4 amended: a filesystem error during the existence check is invisible
(`os.path.exists` returns `False`) and the entry is folded into `missing`
rather than a distinct failure category; an error raised by `os.path.getsize`
aborts the whole pass — `verify_files_exist` produces no report exactly when
some entry exists but its size query raises, leaving all entries unreported. -/
theorem C4_errors_abort_or_fold : ∀ (files : List FileEntry) (bd : List Nat) (fs : FS),
    (verify_files_exist files bd fs = none ↔
      ∃ f ∈ files, fs.exists? (pathJoin2 bd f.path) = true ∧
        fs.getsize (pathJoin2 bd f.path) = none) ∧
    (∀ r, verify_files_exist files bd fs = some r →
      ∀ f ∈ files, fs.exists? (pathJoin2 bd f.path) = false →
        pathJoin2 bd f.path ∈ r.missing.map (fun m => m.path)) := by
  intro files bd fs
  constructor
  · rw [verify_files_exist]
    exact verifyLoop_none fs bd files ⟨[], [], []⟩
  · intro r h f hf hex
    rw [verify_files_exist] at h
    obtain ⟨h1, _, _, _⟩ := verifyLoop_some fs bd files ⟨[], [], []⟩ r h
    rw [h1]
    have hm : missP fs bd f = true := by simp [missP, hex]
    simp only [List.map_append, List.map_map]
    refine List.mem_append.mpr (Or.inr ?_)
    refine List.mem_map.mpr ⟨f, List.mem_filter.mpr ⟨hf, hm⟩, rfl⟩

/-- C4 counterexample: with two entries where the first entry's size query
raises, the pass aborts — no report is produced, the second entry is never
classified, and no distinct per-entry failure is recorded. -/
theorem C4_counterexample :
    verify_files_exist [⟨[97], .int 1, .int 0⟩, ⟨[98], .int 2, .int 0⟩] [46]
      ⟨fun _ => true, fun _ => none⟩ = none := rfl

/-- Witness for C4 at a concrete aborting filesystem. -/
theorem C4_witness :
    verify_files_exist [⟨[97], .int 1, .int 0⟩] [46]
      ⟨fun _ => true, fun _ => none⟩ = none :=
  (C4_errors_abort_or_fold [⟨[97], .int 1, .int 0⟩] [46]
    ⟨fun _ => true, fun _ => none⟩).1.mpr ⟨⟨[97], .int 1, .int 0⟩, by simp, rfl, rfl⟩

/-! ### Total-size accounting in `_extract_file_info` -/

def intOf : Value → Int
  | .int n => n
  | .str _ => 0
  | .list _ => 0
  | .dict _ => 0

theorem pyAdd_int {t : Int} {lv tot2 : Value} (h : pyAdd (.int t) lv = some tot2) :
    ∃ m, lv = .int m ∧ tot2 = .int (t + m) := by
  cases lv with
  | int m =>
      refine ⟨m, rfl, ?_⟩
      rw [pyAdd.eq_def] at h
      dsimp only at h
      injection h with h
      exact h.symm
  | str s => rw [pyAdd.eq_def] at h; dsimp only at h; exact Option.noConfusion h
  | list l => rw [pyAdd.eq_def] at h; dsimp only at h; exact Option.noConfusion h
  | dict d => rw [pyAdd.eq_def] at h; dsimp only at h; exact Option.noConfusion h

theorem extractLoop_sum : ∀ (fl : List Value) (base : List Nat) (pl : Value)
    (acc : List FileEntry) (t : Int) (fls : List FileEntry) (total : Value),
    extractLoop fl base pl acc (.int t) = some (fls, total) →
    ∃ newE, fls = acc ++ newE ∧ (∀ e ∈ newE, ∃ n, e.length = Value.int n) ∧
      total = .int (t + (newE.map (fun e => intOf e.length)).sum) := by
  intro fl
  induction fl with
  | nil =>
      intro base pl acc t fls total h
      rw [extractLoop.eq_def] at h
      dsimp only at h
      injection h with h
      rw [Prod.mk.injEq] at h
      obtain ⟨h1, h2⟩ := h
      exact ⟨[], by simp [← h1], by simp, by simp [← h2]⟩
  | cons fi rest ih =>
      intro base pl acc t fls total h
      rw [extractLoop.eq_def] at h
      cases fi with
      | dict fd =>
          dsimp only at h
          cases hpv : dictGet? fd pathKey with
          | none => rw [hpv] at h; exact Option.noConfusion h
          | some pv =>
              rw [hpv] at h
              dsimp only at h
              cases hparts : pathParts? pv with
              | none => rw [hparts] at h; exact Option.noConfusion h
              | some parts =>
                  rw [hparts] at h
                  dsimp only at h
                  cases hlv : dictGet? fd lengthKey with
                  | none => rw [hlv] at h; exact Option.noConfusion h
                  | some lv =>
                      rw [hlv] at h
                      dsimp only at h
                      cases hadd : pyAdd (.int t) lv with
                      | none => rw [hadd] at h; exact Option.noConfusion h
                      | some tot2 =>
                          rw [hadd] at h
                          dsimp only at h
                          obtain ⟨m, rfl, rfl⟩ := pyAdd_int hadd
                          obtain ⟨newE, he1, he2, he3⟩ := ih base pl _ _ fls total h
                          refine ⟨⟨pathJoinList base parts, .int m, pl⟩ :: newE, ?_, ?_, ?_⟩
                          · rw [he1]; simp
                          · intro e he
                            rcases List.mem_cons.mp he with rfl | he
                            · exact ⟨m, rfl⟩
                            · exact he2 e he
                          · rw [he3]
                            simp only [List.map_cons, List.sum_cons, intOf]
                            congr 1
                            omega
      | int n => dsimp only at h; exact Option.noConfusion h
      | str s => dsimp only at h; exact Option.noConfusion h
      | list l => dsimp only at h; exact Option.noConfusion h

/-- C6.  Whenever `_extract_file_info` succeeds with integer length fields,
`total_size` is the arithmetic sum of the entry lengths (in multi-entry mode
success forces the lengths to be integers; in single-entry mode the single
entry's length and the total are the same stored value); a present-but-empty
`files` list yields zero entries and `total_size` 0. -/
theorem C6_total_is_sum :
    (∀ (info : List (List Nat × Value)) (fls : List FileEntry) (total : Value),
      _extract_file_info info = some (fls, total) →
      (∀ e ∈ fls, ∃ n, e.length = Value.int n) →
      total = .int ((fls.map (fun e => intOf e.length)).sum)) ∧
    (∀ (info : List (List Nat × Value)) (nm : List Nat),
      pyGetDefault info nameKey (.str []) = .str nm →
      dictGet? info filesKey = some (.list []) →
      _extract_file_info info = some ([], .int 0)) := by
  constructor
  · intro info fls total h hint
    rw [_extract_file_info.eq_def] at h
    cases hfk : dictGet? info filesKey with
    | none =>
        rw [hfk] at h
        dsimp only at h
        cases hnm : pyGetDefault info nameKey (.str []) with
        | str nm =>
            rw [hnm] at h
            dsimp only at h
            injection h with h
            rw [Prod.mk.injEq] at h
            obtain ⟨h1, h2⟩ := h
            subst h1
            subst h2
            obtain ⟨n, hn⟩ := hint _ (List.mem_singleton.mpr rfl)
            dsimp only at hn
            simp [intOf, hn]
        | int n => rw [hnm] at h; exact Option.noConfusion h
        | list l => rw [hnm] at h; exact Option.noConfusion h
        | dict d => rw [hnm] at h; exact Option.noConfusion h
    | some filesVal =>
        rw [hfk] at h
        dsimp only at h
        cases hnm : pyGetDefault info nameKey (.str []) with
        | str nm =>
            rw [hnm] at h
            dsimp only at h
            cases hit : pyIterItems filesVal with
            | none => rw [hit] at h; exact Option.noConfusion h
            | some fl =>
                rw [hit] at h
                dsimp only at h
                obtain ⟨newE, he1, he2, he3⟩ := extractLoop_sum fl _ _ [] 0 fls total h
                rw [he3, he1]
                simp
        | int n => rw [hnm] at h; exact Option.noConfusion h
        | list l => rw [hnm] at h; exact Option.noConfusion h
        | dict d => rw [hnm] at h; exact Option.noConfusion h
  · intro info nm hnm hfk
    rw [_extract_file_info.eq_def, hfk, hnm]
    rfl

/-- Witness for C6: single-entry info `{length: 5, name: "a"}` and an info
with an empty `files` list. -/
theorem C6_witness :
    Value.int 5 =
      .int ((([⟨[97], Value.int 5, Value.int 0⟩] : List FileEntry).map
        (fun e => intOf e.length)).sum) ∧
    _extract_file_info [(filesKey, .list [])] = some ([], .int 0) :=
  ⟨C6_total_is_sum.1 [(lengthKey, .int 5), (nameKey, .str [97])]
      [⟨[97], .int 5, .int 0⟩] (.int 5) rfl
      (fun e he => by
        rcases List.mem_singleton.mp he with rfl
        exact ⟨5, rfl⟩),
   C6_total_is_sum.2 [(filesKey, .list [])] [] rfl rfl⟩

/-- C9.  In single-entry mode (`files` key absent) `_extract_file_info` never
fails on missing keys: an absent `name` yields one entry with the empty path
(via the `b''` default), and an absent `length` yields expected length 0 and
`total_size` 0 (via the `.get` default), not an error. -/
theorem C9_single_mode_defaults : ∀ (info : List (List Nat × Value)),
    dictGet? info filesKey = none →
    ((dictGet? info nameKey = none →
      _extract_file_info info =
        some ([⟨[], pyGetDefault info lengthKey (.int 0),
                pyGetDefault info pieceKey (.int 0)⟩],
          pyGetDefault info lengthKey (.int 0))) ∧
     (dictGet? info lengthKey = none →
      ∀ fls tot, _extract_file_info info = some (fls, tot) →
        tot = .int 0 ∧ ∀ e ∈ fls, e.length = .int 0)) := by
  intro info hfk
  constructor
  · intro hnm
    have hdef : pyGetDefault info nameKey (.str []) = .str [] := by
      rw [pyGetDefault, hnm]
      rfl
    rw [_extract_file_info.eq_def, hfk, hdef]
    rfl
  · intro hl fls tot h
    have hdefL : pyGetDefault info lengthKey (.int 0) = .int 0 := by
      rw [pyGetDefault, hl]
      rfl
    rw [_extract_file_info.eq_def, hfk] at h
    dsimp only at h
    cases hnm : pyGetDefault info nameKey (.str []) with
    | str nm =>
        rw [hnm] at h
        dsimp only at h
        injection h with h
        rw [Prod.mk.injEq] at h
        obtain ⟨h1, h2⟩ := h
        subst h1
        subst h2
        refine ⟨hdefL, ?_⟩
        intro e he
        rcases List.mem_singleton.mp he with rfl
        exact hdefL
    | int n => rw [hnm] at h; exact Option.noConfusion h
    | list l => rw [hnm] at h; exact Option.noConfusion h
    | dict d => rw [hnm] at h; exact Option.noConfusion h

/-- Witness for C9 at the empty info dict (every key absent). -/
theorem C9_witness :
    _extract_file_info [] =
      some ([⟨[], pyGetDefault [] lengthKey (.int 0), pyGetDefault [] pieceKey (.int 0)⟩],
        pyGetDefault [] lengthKey (.int 0)) ∧
    (Value.int 0 = .int 0 ∧
      ∀ e ∈ ([⟨[], Value.int 0, Value.int 0⟩] : List FileEntry), e.length = .int 0) :=
  ⟨(C9_single_mode_defaults [] rfl).1 rfl,
   (C9_single_mode_defaults [] rfl).2 rfl [⟨[], .int 0, .int 0⟩] (.int 0) rfl⟩

/-- The concrete C8 info dict:
`{files: [{length: 10, path: ["sub", "b.bin"]}], name: "pkg"}`. -/
def infoC8 : List (List Nat × Value) :=
  [(filesKey, .list [.dict [(lengthKey, .int 10),
      (pathKey, .list [.str [115, 117, 98], .str [98, 46, 98, 105, 110]])]]),
   (nameKey, .str [112, 107, 103])]

/-- The decoded text `"pkg/sub/b.bin"`. -/
def pathC8 : List Nat := [112, 107, 103, 47, 115, 117, 98, 47, 98, 46, 98, 105, 110]

/-- C8.  Extraction of the multi-entry info with `files = [{path:
["sub","b.bin"], length: 10}]` and `name = "pkg"` yields exactly one entry
with path `"pkg/sub/b.bin"` and length 10, and when no file exists at that
path under the verification root, `verify_files_exist` reports it in
`missing` (and nothing else). -/
theorem C8_multi_entry :
    _extract_file_info infoC8 = some ([⟨pathC8, .int 10, .int 0⟩], .int 10) ∧
    ∀ (bd : List Nat) (fs : FS), fs.exists? (pathJoin2 bd pathC8) = false →
      verify_files_exist [⟨pathC8, .int 10, .int 0⟩] bd fs =
        some ⟨[⟨pathJoin2 bd pathC8, .int 10⟩], [], []⟩ := by
  constructor
  · rfl
  · intro bd fs hex
    rw [verify_files_exist, verifyLoop]
    dsimp only
    rw [hex]
    dsimp only
    rw [verifyLoop]
    rfl

/-- Witness for C8 under the all-absent filesystem. -/
theorem C8_witness :
    verify_files_exist [⟨pathC8, .int 10, .int 0⟩] [46]
      ⟨fun _ => false, fun _ => none⟩ =
      some ⟨[⟨pathJoin2 [46] pathC8, .int 10⟩], [], []⟩ :=
  C8_multi_entry.2 [46] ⟨fun _ => false, fun _ => none⟩ rfl

/-- C10.  `load_torrent` returns a state only when every stage succeeded: the
file was readable, the fallback decoder produced a non-falsy value, the root
contains `info` (via Python `in`, which raises on an int root), indexing
retrieved the info value, and extraction succeeded; the stored state is
exactly the tuple of those results, with `info_hash` computed from the
canonical re-encoding of `info`.  Every failure instead yields `none`
(`load_torrent` prints and returns `False`; the surrounding `try/except`
converts any raised exception into `False` as well). -/
theorem C10_load_characterization : ∀ (sha1hex : List Nat → List Nat)
    (fileData : Option (List Nat)) (st : LoadedState),
    load_torrent sha1hex fileData = some st →
    ∃ data td info fls tot,
      fileData = some data ∧
      _decode_bencode data = some td ∧
      pyFalsy td = false ∧
      pyContains td infoKey = some true ∧
      pyIndexVal td infoKey = some info ∧
      extractFromValue info = some (fls, tot) ∧
      st = ⟨td, info, sha1hex (_encode_bencode info), fls, tot⟩ := by
  intro sha1hex fileData st h
  rw [load_torrent.eq_def] at h
  cases fileData with
  | none => exact Option.noConfusion h
  | some data =>
      dsimp only at h
      cases hdec : _decode_bencode data with
      | none => rw [hdec] at h; exact Option.noConfusion h
      | some td =>
          rw [hdec] at h
          dsimp only at h
          cases hfal : pyFalsy td with
          | true => rw [hfal] at h; exact Option.noConfusion (if_pos rfl ▸ h)
          | false =>
              rw [hfal] at h
              rw [if_neg (by simp)] at h
              cases hcon : pyContains td infoKey with
              | none => rw [hcon] at h; exact Option.noConfusion h
              | some b =>
                  rw [hcon] at h
                  cases b with
                  | false => exact Option.noConfusion h
                  | true =>
                      dsimp only at h
                      cases hidx : pyIndexVal td infoKey with
                      | none => rw [hidx] at h; exact Option.noConfusion h
                      | some info =>
                          rw [hidx] at h
                          dsimp only at h
                          cases hext : extractFromValue info with
                          | none => rw [hext] at h; exact Option.noConfusion h
                          | some pr =>
                              obtain ⟨fls, tot⟩ := pr
                              rw [hext] at h
                              dsimp only at h
                              injection h with h
                              exact ⟨data, td, info, fls, tot, rfl, hdec, hfal, hcon,
                                hidx, hext, h.symm⟩

/-- Concrete torrent bytes `d4:infod6:lengthi5e4:name1:aee`. -/
def torBytesC10 : List Nat :=
  [100, 52, 58, 105, 110, 102, 111,
   100, 54, 58, 108, 101, 110, 103, 116, 104, 105, 53, 101,
   52, 58, 110, 97, 109, 101, 49, 58, 97, 101, 101]

def infoValC10 : Value :=
  .dict [(lengthKey, .int 5), (nameKey, .str [97])]

def tdC10 : Value := .dict [(infoKey, infoValC10)]

/-- Witness for C10: a successful load of a one-file torrent. -/
theorem C10_witness :
    ∃ data td info fls tot,
      (some torBytesC10 : Option (List Nat)) = some data ∧
      _decode_bencode data = some td ∧
      pyFalsy td = false ∧
      pyContains td infoKey = some true ∧
      pyIndexVal td infoKey = some info ∧
      extractFromValue info = some (fls, tot) ∧
      (⟨tdC10, infoValC10, [], [⟨[97], .int 5, .int 0⟩], .int 5⟩ : LoadedState) =
        ⟨td, info, (fun _ => ([] : List Nat)) (_encode_bencode info), fls, tot⟩ :=
  C10_load_characterization (fun _ => []) (some torBytesC10)
    ⟨tdC10, infoValC10, [], [⟨[97], .int 5, .int 0⟩], .int 5⟩ rfl
